import Mathlib

/-!
Verification of the SigMF archive reader (`sigmf/archivereader.py`).

The development shallowly embeds `SigMFArchiveReader.__init__`: tar members
become `TarMember` values, the grouping loop becomes the fold `groupMembers`
over `groupStep`, the per-recording construction pass becomes
`buildRecordings`, and the whole constructor becomes `readerInit`, which also
returns the trace of container events (open/close/diagnostics/warning).
-/

namespace SigMF

/-- Characters of a path.  Python strings are modelled as `List Char`. -/
abbrev PathStr := List Char

/-- Python `str.endswith`: `suf` is a suffix of `s`. -/
def endswith (s suf : PathStr) : Bool :=
  List.isSuffixOf suf s

/-- Index of the LAST occurrence of `c` in the list (Python `str.rfind`,
with `none` standing for `-1`). -/
def rfindCharAux (c : Char) : PathStr → Option Nat
  | [] => none
  | x :: xs =>
    match rfindCharAux c xs with
    | some i => some (i + 1)
    | none => if x = c then some 0 else none

/-- Drop trailing copies of `c` (Python `str.rstrip` with one character). -/
def dropTrailing (c : Char) (l : PathStr) : PathStr :=
  (l.reverse.dropWhile (· == c)).reverse

/-- Python `os.path.dirname` for POSIX paths: everything up to the last `/`,
with trailing separators stripped unless the head is all separators. -/
def dirname (p : PathStr) : PathStr :=
  match rfindCharAux '/' p with
  | none => []
  | some i =>
    let head := p.take (i + 1)
    if head.all (· == '/') then head else dropTrailing '/' head

/-- The root component of Python `os.path.splitext` for POSIX paths: the path
up to the last dot of the final component, except that leading dots of that
component never start an extension. -/
def splitextRoot (p : PathStr) : PathStr :=
  match rfindCharAux '.' p with
  | none => p
  | some dotIdx =>
    let sepIdx1 : Nat :=
      match rfindCharAux '/' p with
      | none => 0
      | some i => i + 1
    if sepIdx1 ≤ dotIdx then
      if ((p.drop sepIdx1).take (dotIdx - sepIdx1)).all (· == '.') then p
      else p.take dotIdx
    else p

/-- Modelled from the spec: the repository's extension constants live in
`sigmf/archive.py`, which is not part of the analysed sources; the spec names
the archive extension (`.sigmf`) and three reserved entry suffixes. -/
def SIGMF_ARCHIVE_EXT : PathStr := ".sigmf".toList

/-- Modelled from the spec: reserved suffix of metadata entries. -/
def SIGMF_METADATA_EXT : PathStr := ".sigmf-meta".toList

/-- Modelled from the spec: reserved suffix of dataset entries. -/
def SIGMF_DATASET_EXT : PathStr := ".sigmf-data".toList

/-- Modelled from the spec: reserved suffix of collection entries. -/
def SIGMF_COLLECTION_EXT : PathStr := ".sigmf-collection".toList

/-- Tar member kinds distinguished by the loop: `memb.isdir()`,
`memb.isfile()`, and everything else. -/
inductive MemberType
  | regular
  | directory
  | other
deriving DecidableEq, Repr

/-- A tar member (`tarfile.TarInfo`) as the reader uses it: a name, a type, the
payload position (`offset_data`, `size`), and its raw contents.  `valid`
models, from the spec, whether `SigMFFile(...).validate()` accepts the
member's metadata document (the validator lives outside the analysed
sources). -/
structure TarMember where
  name : PathStr
  mtype : MemberType
  contents : String
  valid : Bool
  offset_data : Nat
  size : Nat
deriving DecidableEq, Repr

/-- `ArchiveRecording`: holds the TarInfo objects found for one recording. -/
structure ArchiveRecording where
  metadata : Option TarMember
  data : Option TarMember
deriving DecidableEq, Repr

/-- Observable events of the constructor: container open/close, the three
`print` diagnostics, and the no-dataset warning. -/
inductive ReaderEvent
  | openContainer
  | closeContainer
  | printCollection (name : PathStr)
  | printIgnored (name : PathStr)
  | printUnhandled (name : PathStr)
  | warnNoData
deriving DecidableEq, Repr

/-- Errors raised by the constructor: `ValueError` for a missing source,
`SigMFFileError` for a bad extension, the schema `ValidationError`, and an
`internal` placeholder for the unreachable metadata-less build. -/
inductive ReaderErr
  | usage
  | format
  | validation
  | internal
deriving DecidableEq, Repr

/-- State of the grouping loop: the flushed `recordings` list and the mutable
current `ArchiveRecording`. -/
structure GroupState where
  recordings : List ArchiveRecording
  current : ArchiveRecording
deriving DecidableEq, Repr

/-- The body of the member loop: classify one member and update the state,
emitting any diagnostics. -/
def groupStep (s : GroupState) (memb : TarMember) : GroupState × List ReaderEvent :=
  match memb.mtype with
  | .directory => (s, [])
  | .regular =>
    if endswith memb.name SIGMF_METADATA_EXT then
      match s.current.metadata with
      | some _ =>
        ({ recordings := s.recordings ++ [s.current]
         , current := { metadata := some memb, data := none } }, [])
      | none =>
        ({ s with current := { s.current with metadata := some memb } }, [])
    else if endswith memb.name SIGMF_DATASET_EXT then
      ({ s with current := { s.current with data := some memb } }, [])
    else if endswith memb.name SIGMF_COLLECTION_EXT then
      (s, [.printCollection memb.name])
    else
      (s, [.printIgnored memb.name])
  | .other => (s, [.printUnhandled memb.name])

/-- The member loop: fold `groupStep` over the members, collecting events. -/
def groupMembers : List TarMember → GroupState → GroupState × List ReaderEvent
  | [], s => (s, [])
  | m :: ms, s =>
    let p1 := groupStep s m
    let p2 := groupMembers ms p1.fst
    (p2.fst, p1.snd ++ p2.snd)

/-- Initial loop state: no flushed recordings, empty current recording. -/
def initState : GroupState :=
  { recordings := [], current := { metadata := none, data := none } }

/-- The post-loop flush: `if recording.metadata: recordings.append(recording)`. -/
def finishGroups (s : GroupState) : List ArchiveRecording :=
  match s.current.metadata with
  | some _ => s.recordings ++ [s.current]
  | none => s.recordings

/-- A produced `SigMFFile`, as far as the reader shapes it: the derived name,
the metadata document bytes, and the dataset reference installed by
`set_data_file` (modelled from the spec as the `(offset, size)` pair; the
checksum collaborator is out of scope and `set_data_file` succeeds). -/
structure SigMFFile where
  name : PathStr
  metadata : String
  dataFile : Option (Nat × Nat)
deriving DecidableEq, Repr

/-- Construction of one recording's `SigMFFile`: derive the name from the
metadata entry's path (`splitext` then `dirname`), read the metadata bytes,
validate, and bind the dataset reference when a data member is present.  A
flushed recording always carries metadata; the `internal` arm is dead code. -/
def buildRecording (r : ArchiveRecording) : Except ReaderErr SigMFFile :=
  match r.metadata with
  | none => .error .internal
  | some meta =>
    if meta.valid then
      .ok { name := dirname (splitextRoot meta.name)
          , metadata := meta.contents
          , dataFile := r.data.map fun d => (d.offset_data, d.size) }
    else .error .validation

/-- The construction loop over the flushed recordings, stopping at the first
raised error. -/
def buildRecordings : List ArchiveRecording → Except ReaderErr (List SigMFFile)
  | [] => .ok []
  | r :: rs =>
    match buildRecording r with
    | .error e => .error e
    | .ok f =>
      match buildRecordings rs with
      | .error e => .error e
      | .ok fs => .ok (f :: fs)

/-- Everything between a successful `tarfile.open` and the `finally` close:
the grouping loop, the construction loop, and the no-dataset warning.  The
event list brackets the work with exactly one open and one close. -/
def parseArchive (members : List TarMember) :
    Except ReaderErr (List SigMFFile) × List ReaderEvent :=
  let p := groupMembers members initState
  let recs := finishGroups p.fst
  match buildRecordings recs with
  | .error e =>
    (.error e, ReaderEvent.openContainer :: p.snd ++ [ReaderEvent.closeContainer])
  | .ok files =>
    let warnEvs : List ReaderEvent :=
      if recs.any (fun r => r.data.isSome) then [] else [ReaderEvent.warnNoData]
    (.ok files,
     ReaderEvent.openContainer :: p.snd ++ warnEvs ++ [ReaderEvent.closeContainer])

/-- `SigMFArchiveReader.__init__`: check the source arguments, open the
container when the checks pass, and run the parse.  `members` is the content
of whichever source is opened; `hasBuffer` models `archive_buffer is not
None`. -/
def readerInit (path : Option PathStr) (hasBuffer : Bool)
    (members : List TarMember) :
    Except ReaderErr (List SigMFFile) × List ReaderEvent :=
  match path with
  | some p =>
    if endswith p SIGMF_ARCHIVE_EXT then parseArchive members
    else (.error .format, [])
  | none =>
    if hasBuffer then parseArchive members
    else (.error .usage, [])

/-- A regular member carrying the metadata suffix (first branch of the
classifier). -/
def isMetaFile (m : TarMember) : Bool :=
  m.mtype == .regular && endswith m.name SIGMF_METADATA_EXT

/-- A regular member reaching the dataset branch of the classifier (the
metadata test is checked first). -/
def isDataFile (m : TarMember) : Bool :=
  m.mtype == .regular && !endswith m.name SIGMF_METADATA_EXT
    && endswith m.name SIGMF_DATASET_EXT

/-- Whether the constructor acquires a container handle at all: a path ending
in the archive extension, or (with no path) a buffer. -/
def openedSource (path : Option PathStr) (hasBuffer : Bool) : Bool :=
  match path with
  | some p => endswith p SIGMF_ARCHIVE_EXT
  | none => hasBuffer

/-- Declarative grouping of the members after an open group `(m, d)`: a new
metadata member flushes the group, a dataset member replaces the pending
dataset, anything else is skipped. -/
def specGroupsFrom (m : TarMember) (d : Option TarMember) :
    List TarMember → List ArchiveRecording
  | [] => [{ metadata := some m, data := d }]
  | x :: xs =>
    if isMetaFile x then
      { metadata := some m, data := d } :: specGroupsFrom x none xs
    else if isDataFile x then specGroupsFrom m (some x) xs
    else specGroupsFrom m d xs

/-- Declarative grouping from the empty state; it agrees with the loop exactly
when no dataset member precedes the first metadata member. -/
def specGroups : List TarMember → List ArchiveRecording
  | [] => []
  | x :: xs =>
    if isMetaFile x then specGroupsFrom x none xs
    else specGroups xs

/-- No dataset member occurs before the first metadata member (equivalently:
the loop never sees a dataset while its accumulator is still empty). -/
def noLeadingData : List TarMember → Bool
  | [] => true
  | x :: xs =>
    if isMetaFile x then true
    else if isDataFile x then false
    else noLeadingData xs

/-- Scan of the construction invariant; `dataSeen` records whether the current
window (since the last metadata member, or since the start) already holds a
dataset member. -/
def wfFrom (dataSeen : Bool) : List TarMember → Bool
  | [] => true
  | x :: xs =>
    if isMetaFile x then wfFrom false xs
    else if isDataFile x then !dataSeen && wfFrom true xs
    else wfFrom dataSeen xs

/-- The construction invariant of §4.2: every recording's metadata entry
precedes its dataset entry (no dataset before the first metadata) and no
window between consecutive metadata entries holds two dataset entries. -/
def wellFormedArchive (ms : List TarMember) : Bool :=
  wfFrom true ms

/-- Members the classifier sends to the metadata branch, in container order. -/
def metaFiles (ms : List TarMember) : List TarMember :=
  ms.filter isMetaFile

/-- Concrete tar member for the concrete scenarios; its contents double as its
name and it carries an explicit payload position. -/
def sampleMember (n : String) (t : MemberType) (v : Bool) (off sz : Nat) : TarMember :=
  { name := n.toList, mtype := t, contents := n, valid := v
  , offset_data := off, size := sz }

/-- Flat-layout metadata entry of recording 1. -/
def exMeta1 : TarMember := sampleMember "rec1.sigmf-meta" .regular true 0 10

/-- Flat-layout dataset entry of recording 1. -/
def exData1 : TarMember := sampleMember "rec1.sigmf-data" .regular true 100 20

/-- Flat-layout metadata entry of recording 2. -/
def exMeta2 : TarMember := sampleMember "rec2.sigmf-meta" .regular true 200 10

/-- Flat-layout dataset entry of recording 2. -/
def exData2 : TarMember := sampleMember "rec2.sigmf-data" .regular true 300 40

/-- Directory-layout metadata entry of recording 1. -/
def exMetaDir1 : TarMember := sampleMember "rec1/rec1.sigmf-meta" .regular true 0 10

/-- Directory-layout dataset entry of recording 1. -/
def exDataDir1 : TarMember := sampleMember "rec1/rec1.sigmf-data" .regular true 100 20

/-- Directory-layout metadata entry of recording 2. -/
def exMetaDir2 : TarMember := sampleMember "rec2/rec2.sigmf-meta" .regular true 200 10

/-- Directory-layout dataset entry of recording 2. -/
def exDataDir2 : TarMember := sampleMember "rec2/rec2.sigmf-data" .regular true 300 40

/-- A metadata entry whose document fails schema validation. -/
def exMetaInvalid : TarMember := sampleMember "bad.sigmf-meta" .regular false 400 5

/-- A member cannot reach both the metadata branch and the dataset branch. -/
theorem isDataFile_not_meta {m : TarMember} (h : isDataFile m = true) :
    isMetaFile m = false := by
  simp only [isDataFile, Bool.and_eq_true, Bool.not_eq_true'] at h
  obtain ⟨⟨h1, h2⟩, h3⟩ := h
  simp [isMetaFile, h1, h2]

/-- Unfolding: one step of the member loop. -/
theorem groupMembers_cons_fst (m : TarMember) (ms : List TarMember) (s : GroupState) :
    (groupMembers (m :: ms) s).fst = (groupMembers ms (groupStep s m).fst).fst := rfl

/-- Unfolding: the events of one step of the member loop. -/
theorem groupMembers_cons_snd (m : TarMember) (ms : List TarMember) (s : GroupState) :
    (groupMembers (m :: ms) s).snd
      = (groupStep s m).snd ++ (groupMembers ms (groupStep s m).fst).snd := rfl

/-- A metadata member seen while a group is open flushes the group and opens a
fresh one holding only the new metadata. -/
theorem groupStep_meta_open {m : TarMember} (s : GroupState)
    (h : isMetaFile m = true) {m0 : TarMember} (hc : s.current.metadata = some m0) :
    groupStep s m
      = ({ recordings := s.recordings ++ [s.current]
         , current := { metadata := some m, data := none } }, []) := by
  simp only [isMetaFile, Bool.and_eq_true, beq_iff_eq] at h
  rcases m with ⟨name, mtype, co, v, o, sz⟩
  rcases h with ⟨h1, h2⟩
  subst h1
  simp [groupStep, h2, hc]

/-- A metadata member seen while the accumulator is empty is assigned to the
current group; any dataset already held by the group is kept. -/
theorem groupStep_meta_empty {m : TarMember} (s : GroupState)
    (h : isMetaFile m = true) (hc : s.current.metadata = none) :
    groupStep s m = ({ s with current := { s.current with metadata := some m } }, []) := by
  simp only [isMetaFile, Bool.and_eq_true, beq_iff_eq] at h
  rcases m with ⟨name, mtype, co, v, o, sz⟩
  rcases h with ⟨h1, h2⟩
  subst h1
  simp [groupStep, h2, hc]

/-- A dataset member overwrites the current group's dataset slot, touches
nothing else, and emits no diagnostic. -/
theorem groupStep_data {m : TarMember} (s : GroupState) (h : isDataFile m = true) :
    groupStep s m = ({ s with current := { s.current with data := some m } }, []) := by
  simp only [isDataFile, Bool.and_eq_true, Bool.not_eq_true', beq_iff_eq] at h
  rcases m with ⟨name, mtype, co, v, o, sz⟩
  rcases h with ⟨⟨h1, h2⟩, h3⟩
  subst h1
  simp [groupStep, h2, h3]

/-- Directories, collections and unrecognized members leave the state alone. -/
theorem groupStep_skip_fst {m : TarMember} (s : GroupState)
    (hm : isMetaFile m = false) (hd : isDataFile m = false) :
    (groupStep s m).fst = s := by
  rcases m with ⟨name, mtype, co, v, o, sz⟩
  cases mtype with
  | regular =>
    simp only [isMetaFile, beq_self_eq_true, Bool.true_and] at hm
    simp only [isDataFile, beq_self_eq_true, Bool.true_and, hm, Bool.not_false] at hd
    by_cases hc : endswith name SIGMF_COLLECTION_EXT = true
    · simp [groupStep, hm, hd, hc]
    · simp [groupStep, hm, hd, hc]
  | directory => rfl
  | other => rfl

/-- The member loop never emits an open, a close, or the no-dataset warning:
its only events are the three `print` diagnostics. -/
theorem groupStep_events {m : TarMember} (s : GroupState) {e : ReaderEvent}
    (he : e ∈ (groupStep s m).snd) :
    e ≠ .openContainer ∧ e ≠ .closeContainer ∧ e ≠ .warnNoData := by
  rcases m with ⟨name, mtype, co, v, o, sz⟩
  cases mtype with
  | regular =>
    simp only [groupStep] at he
    split at he
    · split at he <;> simp at he
    · split at he
      · simp at he
      · split at he <;> (simp at he; subst he; simp)
  | directory => simp [groupStep] at he
  | other => simp [groupStep] at he; subst he; simp

/-- The whole member loop emits only `print` diagnostics. -/
theorem groupMembers_events :
    ∀ (ms : List TarMember) (s : GroupState) {e : ReaderEvent},
      e ∈ (groupMembers ms s).snd →
      e ≠ .openContainer ∧ e ≠ .closeContainer ∧ e ≠ .warnNoData := by
  intro ms
  induction ms with
  | nil => intro s e he; simp [groupMembers] at he
  | cons m ms ih =>
    intro s e he
    rw [groupMembers_cons_snd, List.mem_append] at he
    rcases he with he | he
    · exact groupStep_events s he
    · exact ih _ he

/-- Running the loop from an open group `(m, d)` flushes exactly the
declarative grouping `specGroupsFrom m d` after the already-saved recordings. -/
theorem finish_group_open :
    ∀ (ms : List TarMember) (recs : List ArchiveRecording) (m : TarMember)
      (d : Option TarMember),
      finishGroups (groupMembers ms
          { recordings := recs, current := { metadata := some m, data := d } }).fst
        = recs ++ specGroupsFrom m d ms := by
  intro ms
  induction ms with
  | nil => intro recs m d; simp [groupMembers, finishGroups, specGroupsFrom]
  | cons x xs ih =>
    intro recs m d
    rw [groupMembers_cons_fst]
    by_cases hm : isMetaFile x = true
    · rw [groupStep_meta_open _ hm rfl]
      rw [ih]
      simp [specGroupsFrom, hm, List.append_assoc]
    · by_cases hd : isDataFile x = true
      · rw [groupStep_data _ hd]
        rw [ih]
        simp [specGroupsFrom, hm, hd]
      · rw [groupStep_skip_fst _ (by simpa using hm) (by simpa using hd)]
        rw [ih]
        simp [specGroupsFrom, hm, hd]

/-- When no dataset member precedes the first metadata member, the loop run
from the empty state flushes exactly the declarative grouping `specGroups`. -/
theorem finish_group_empty :
    ∀ (ms : List TarMember) (recs : List ArchiveRecording),
      noLeadingData ms = true →
      finishGroups (groupMembers ms
          { recordings := recs, current := { metadata := none, data := none } }).fst
        = recs ++ specGroups ms := by
  intro ms
  induction ms with
  | nil => intro recs _; simp [groupMembers, finishGroups, specGroups]
  | cons x xs ih =>
    intro recs hn
    rw [groupMembers_cons_fst]
    by_cases hm : isMetaFile x = true
    · rw [groupStep_meta_empty _ hm rfl]
      rw [finish_group_open]
      simp [specGroups, hm]
    · by_cases hd : isDataFile x = true
      · simp [noLeadingData, hm, hd] at hn
      · rw [groupStep_skip_fst _ (by simpa using hm) (by simpa using hd)]
        rw [ih]
        · simp [specGroups, hm, hd]
        · simpa [noLeadingData, hm, hd] using hn

/-- The metadata slots of the declarative grouping from an open group: the
pending metadata first, then the remaining metadata members in order. -/
theorem specGroupsFrom_meta_map :
    ∀ (xs : List TarMember) (m : TarMember) (d : Option TarMember),
      (specGroupsFrom m d xs).map ArchiveRecording.metadata
        = some m :: (metaFiles xs).map some := by
  intro xs
  induction xs with
  | nil => intro m d; simp [specGroupsFrom, metaFiles]
  | cons x xs ih =>
    intro m d
    by_cases hm : isMetaFile x = true
    · simp [specGroupsFrom, hm, metaFiles, List.filter_cons, ih]
    · by_cases hd : isDataFile x = true
      · simp [specGroupsFrom, hm, hd, metaFiles, List.filter_cons, ih]
      · simp [specGroupsFrom, hm, hd, metaFiles, List.filter_cons, ih]

/-- The metadata slots of the declarative grouping are exactly the metadata
members, in container order. -/
theorem specGroups_meta_map :
    ∀ ms : List TarMember,
      (specGroups ms).map ArchiveRecording.metadata = (metaFiles ms).map some := by
  intro ms
  induction ms with
  | nil => simp [specGroups, metaFiles]
  | cons x xs ih =>
    by_cases hm : isMetaFile x = true
    · simp [specGroups, hm, metaFiles, List.filter_cons, specGroupsFrom_meta_map]
    · simp [specGroups, hm, metaFiles, List.filter_cons, ih]

/-- The construction invariant forbids a dataset member before the first
metadata member. -/
theorem wellFormed_noLeadingData :
    ∀ ms : List TarMember, wfFrom true ms = true → noLeadingData ms = true := by
  intro ms
  induction ms with
  | nil => intro _; rfl
  | cons x xs ih =>
    intro h
    by_cases hm : isMetaFile x = true
    · simp [noLeadingData, hm]
    · by_cases hd : isDataFile x = true
      · simp [wfFrom, hm, hd] at h
      · simp only [wfFrom, hm, hd] at h
        simpa [noLeadingData, hm, hd] using ih (by simpa using h)

/-- The invariant scan survives dropping a prefix (with some window flag). -/
theorem wfFrom_append :
    ∀ (a rest : List TarMember) (f : Bool), wfFrom f (a ++ rest) = true →
      ∃ f', wfFrom f' rest = true := by
  intro a
  induction a with
  | nil => intro rest f h; exact ⟨f, h⟩
  | cons x xs ih =>
    intro rest f h
    by_cases hm : isMetaFile x = true
    · simp [List.cons_append, wfFrom, hm] at h
      exact ih rest false h
    · by_cases hd : isDataFile x = true
      · simp [List.cons_append, wfFrom, hm, hd, Bool.and_eq_true] at h
        exact ih rest true h.2
      · simp [List.cons_append, wfFrom, hm, hd] at h
        exact ih rest f h

/-- Inversion of a successful single-recording construction. -/
theorem buildRecording_ok_elim {r : ArchiveRecording} {f : SigMFFile}
    (h : buildRecording r = .ok f) :
    ∃ m, r.metadata = some m ∧ m.valid = true ∧
      f = { name := dirname (splitextRoot m.name)
          , metadata := m.contents
          , dataFile := r.data.map fun d => (d.offset_data, d.size) } := by
  rcases r with ⟨mo, dd⟩
  cases mo with
  | none => simp [buildRecording] at h
  | some m =>
    by_cases hv : m.valid = true
    · refine ⟨m, rfl, hv, ?_⟩
      simp only [buildRecording, hv, if_true, Except.ok.injEq] at h
      exact h.symm
    · simp [buildRecording, hv] at h

/-- Successful construction of one recording with valid metadata. -/
theorem buildRecording_ok {m : TarMember} (hv : m.valid = true)
    (d : Option TarMember) :
    buildRecording { metadata := some m, data := d }
      = .ok { name := dirname (splitextRoot m.name)
            , metadata := m.contents
            , dataFile := d.map fun x => (x.offset_data, x.size) } := by
  simp [buildRecording, hv]

/-- A successful construction pass builds the recordings pointwise. -/
theorem buildRecordings_forall :
    ∀ (recs : List ArchiveRecording) (fs : List SigMFFile),
      buildRecordings recs = .ok fs →
      List.Forall₂ (fun r f => buildRecording r = .ok f) recs fs := by
  intro recs
  induction recs with
  | nil =>
    intro fs h
    simp only [buildRecordings, Except.ok.injEq] at h
    subst h
    exact List.Forall₂.nil
  | cons r rs ih =>
    intro fs h
    simp only [buildRecordings] at h
    cases hb : buildRecording r with
    | error e => rw [hb] at h; exact absurd h (by simp)
    | ok f =>
      rw [hb] at h
      cases hbs : buildRecordings rs with
      | error e => rw [hbs] at h; exact absurd h (by simp)
      | ok fs' =>
        rw [hbs] at h
        simp only [Except.ok.injEq] at h
        subst h
        exact List.Forall₂.cons hb (ih fs' hbs)

/-- A successful construction pass yields one file per recording. -/
theorem buildRecordings_length {recs : List ArchiveRecording} {fs : List SigMFFile}
    (h : buildRecordings recs = .ok fs) : fs.length = recs.length :=
  (buildRecordings_forall recs fs h).length_eq.symm

/-- A successful construction pass preserves positions. -/
theorem buildRecordings_get {recs : List ArchiveRecording} {fs : List SigMFFile}
    (h : buildRecordings recs = .ok fs) :
    ∀ (k : Nat) (r : ArchiveRecording), recs.get? k = some r →
      ∃ f, fs.get? k = some f ∧ buildRecording r = .ok f := by
  have hf := buildRecordings_forall recs fs h
  clear h
  induction hf with
  | nil => intro k r hr; simp at hr
  | cons h1 h2 ih =>
    intro k r hr
    cases k with
    | zero =>
      simp only [List.get?] at hr
      cases hr
      exact ⟨_, rfl, h1⟩
    | succ k => exact ih k r hr

/-- The metadata documents of the produced files are the contents of the
recordings' metadata members, in order. -/
theorem buildRecordings_map_metadata {recs : List ArchiveRecording}
    {fs : List SigMFFile} (h : buildRecordings recs = .ok fs) :
    fs.map (fun f => some f.metadata)
      = recs.map (fun r => r.metadata.map TarMember.contents) := by
  have hf := buildRecordings_forall recs fs h
  clear h
  induction hf with
  | nil => rfl
  | cons h1 h2 ih =>
    obtain ⟨m, hm, hv, hfm⟩ := buildRecording_ok_elim h1
    simp [hfm, hm, ih]

/-- The names of the produced files are derived from the recordings' metadata
paths by `splitext` then `dirname`, in order. -/
theorem buildRecordings_map_name {recs : List ArchiveRecording}
    {fs : List SigMFFile} (h : buildRecordings recs = .ok fs) :
    fs.map (fun f => some f.name)
      = recs.map (fun r => r.metadata.map fun m => dirname (splitextRoot m.name)) := by
  have hf := buildRecordings_forall recs fs h
  clear h
  induction hf with
  | nil => rfl
  | cons h1 h2 ih =>
    obtain ⟨m, hm, hv, hfm⟩ := buildRecording_ok_elim h1
    simp [hfm, hm, ih]

/-- A successful parse is exactly a successful construction pass over the
flushed groups. -/
theorem parseArchive_fst_ok {ms : List TarMember} {fs : List SigMFFile} :
    (parseArchive ms).fst = .ok fs ↔
      buildRecordings (finishGroups (groupMembers ms initState).fst) = .ok fs := by
  unfold parseArchive
  cases hb : buildRecordings (finishGroups (groupMembers ms initState).fst) with
  | error e => simp [hb]
  | ok files => simp [hb]

/-- A raised construction error aborts the parse; the trace still closes the
container exactly at the end. -/
theorem parseArchive_eq_error {ms : List TarMember} {e : ReaderErr}
    (h : buildRecordings (finishGroups (groupMembers ms initState).fst) = .error e) :
    parseArchive ms
      = (.error e,
         ReaderEvent.openContainer :: (groupMembers ms initState).snd
           ++ [ReaderEvent.closeContainer]) := by
  simp only [parseArchive]
  rw [h]

/-- A successful parse returns the built files; the trace holds the loop
diagnostics, the warning when no recording carries a dataset, and the close. -/
theorem parseArchive_eq_ok {ms : List TarMember} {fs : List SigMFFile}
    (h : buildRecordings (finishGroups (groupMembers ms initState).fst) = .ok fs) :
    parseArchive ms
      = (.ok fs,
         ReaderEvent.openContainer :: (groupMembers ms initState).snd
           ++ (if (finishGroups (groupMembers ms initState).fst).any
                  (fun r => r.data.isSome) then [] else [ReaderEvent.warnNoData])
           ++ [ReaderEvent.closeContainer]) := by
  simp only [parseArchive]
  rw [h]

/-- The loop diagnostics contain no close event. -/
theorem groupMembers_close_count (ms : List TarMember) (s : GroupState) :
    ((groupMembers ms s).snd).count ReaderEvent.closeContainer = 0 := by
  rw [List.count_eq_zero]
  intro hmem
  exact (groupMembers_events ms s hmem).2.1 rfl

/-- The loop diagnostics contain no warning event. -/
theorem groupMembers_warn_count (ms : List TarMember) (s : GroupState) :
    ((groupMembers ms s).snd).count ReaderEvent.warnNoData = 0 := by
  rw [List.count_eq_zero]
  intro hmem
  exact (groupMembers_events ms s hmem).2.2 rfl

/-- Whatever the archive holds and however the parse ends, the trace closes
the container exactly once. -/
theorem parseArchive_close_count (ms : List TarMember) :
    ((parseArchive ms).snd).count ReaderEvent.closeContainer = 1 := by
  cases hb : buildRecordings (finishGroups (groupMembers ms initState).fst) with
  | error e =>
    rw [parseArchive_eq_error hb]
    simp [List.count_append, List.count_cons, groupMembers_close_count]
  | ok files =>
    rw [parseArchive_eq_ok hb]
    by_cases hw : (finishGroups (groupMembers ms initState).fst).any
        (fun r => r.data.isSome) = true
    · simp [hw, List.count_append, List.count_cons, groupMembers_close_count]
    · simp [hw, List.count_append, List.count_cons, groupMembers_close_count]

/-- The loop only ever appends to the flushed list, and everything it appends
carries a metadata member. -/
theorem groupMembers_recordings_metadata :
    ∀ (ms : List TarMember) (s : GroupState),
      (∀ r ∈ s.recordings, r.metadata.isSome) →
      ∀ r ∈ ((groupMembers ms s).fst).recordings, r.metadata.isSome := by
  intro ms
  induction ms with
  | nil => intro s hs; simpa [groupMembers] using hs
  | cons x xs ih =>
    intro s hs
    rw [groupMembers_cons_fst]
    by_cases hm : isMetaFile x = true
    · cases hc : s.current.metadata with
      | some m0 =>
        rw [groupStep_meta_open s hm hc]
        apply ih
        intro r hr
        rcases List.mem_append.mp hr with hr | hr
        · exact hs r hr
        · rcases List.mem_singleton.mp hr with rfl
          simp [hc]
      | none =>
        rw [groupStep_meta_empty s hm hc]
        exact ih _ hs
    · by_cases hd : isDataFile x = true
      · rw [groupStep_data s hd]
        exact ih _ hs
      · rw [groupStep_skip_fst s (by simpa using hm) (by simpa using hd)]
        exact ih _ hs

/-- Every flushed recording of a full run carries a metadata member. -/
theorem finish_metadata_isSome (ms : List TarMember) :
    ∀ r ∈ finishGroups (groupMembers ms initState).fst, r.metadata.isSome := by
  intro r hr
  have hrec := groupMembers_recordings_metadata ms initState (by simp [initState])
  unfold finishGroups at hr
  split at hr
  · rcases List.mem_append.mp hr with hr | hr
    · exact hrec r hr
    · rcases List.mem_singleton.mp hr with rfl
      simp only [Option.isSome]
      split <;> simp_all
  · exact hrec r hr

/-- If every recording has metadata and at least one of those metadata members
fails validation, the construction loop raises exactly a validation error. -/
theorem buildRecordings_error_validation :
    ∀ recs : List ArchiveRecording,
      (∀ r ∈ recs, r.metadata.isSome) →
      (∃ r ∈ recs, ∃ m, r.metadata = some m ∧ m.valid = false) →
      buildRecordings recs = .error .validation := by
  intro recs
  induction recs with
  | nil => intro _ hex; simp at hex
  | cons r rs ih =>
    intro hall hex
    obtain ⟨m0, hm0⟩ := Option.isSome_iff_exists.mp (hall r (by simp))
    by_cases hv : m0.valid = true
    · have hex' : ∃ r ∈ rs, ∃ m, r.metadata = some m ∧ m.valid = false := by
        rcases hex with ⟨r', hr', m, hm, hmv⟩
        rcases List.mem_cons.mp hr' with rfl | hr'
        · rw [hm0] at hm
          cases hm
          rw [hv] at hmv
          cases hmv
        · exact ⟨r', hr', m, hm, hmv⟩
      have htl := ih (fun x hx => hall x (List.mem_cons_of_mem r hx)) hex'
      simp [buildRecordings, buildRecording, hm0, hv, htl]
    · simp [buildRecordings, buildRecording, hm0, hv]

/-- Rewriting: a metadata member flushes the open declarative group. -/
theorem specGroupsFrom_cons_meta {x : TarMember} (m : TarMember)
    (d : Option TarMember) (xs : List TarMember) (hx : isMetaFile x = true) :
    specGroupsFrom m d (x :: xs)
      = { metadata := some m, data := d } :: specGroupsFrom x none xs := by
  simp [specGroupsFrom, hx]

/-- Rewriting: a dataset member becomes the open declarative group's pending
dataset. -/
theorem specGroupsFrom_cons_dataset {x : TarMember} (m : TarMember)
    (d : Option TarMember) (xs : List TarMember) (hx : isDataFile x = true) :
    specGroupsFrom m d (x :: xs) = specGroupsFrom m (some x) xs := by
  simp [specGroupsFrom, isDataFile_not_meta hx, hx]

/-- Rewriting: other members leave the open declarative group alone. -/
theorem specGroupsFrom_cons_skip {x : TarMember} (m : TarMember)
    (d : Option TarMember) (xs : List TarMember) (hx : isMetaFile x = false)
    (hxd : isDataFile x = false) :
    specGroupsFrom m d (x :: xs) = specGroupsFrom m d xs := by
  simp [specGroupsFrom, hx, hxd]

/-- Rewriting: the first metadata member opens the declarative grouping. -/
theorem specGroups_cons_meta {x : TarMember} (xs : List TarMember)
    (hx : isMetaFile x = true) :
    specGroups (x :: xs) = specGroupsFrom x none xs := by
  simp [specGroups, hx]

/-- Rewriting: non-metadata members before the first metadata member are
dropped by the declarative grouping. -/
theorem specGroups_cons_skip {x : TarMember} (xs : List TarMember)
    (hx : isMetaFile x = false) :
    specGroups (x :: xs) = specGroups xs := by
  simp [specGroups, hx]

/-- Rewriting: a metadata member is kept by the metadata filter. -/
theorem metaFiles_cons_pos {x : TarMember} (xs : List TarMember)
    (hx : isMetaFile x = true) : metaFiles (x :: xs) = x :: metaFiles xs := by
  simp [metaFiles, List.filter_cons, hx]

/-- Rewriting: a non-metadata member is dropped by the metadata filter. -/
theorem metaFiles_cons_neg {x : TarMember} (xs : List TarMember)
    (hx : isMetaFile x = false) : metaFiles (x :: xs) = metaFiles xs := by
  simp [metaFiles, List.filter_cons, hx]

/-- Rewriting: a member that is neither metadata nor dataset does not decide
the leading-dataset check. -/
theorem noLeadingData_cons_skip {x : TarMember} (xs : List TarMember)
    (hx : isMetaFile x = false) (hxd : isDataFile x = false) :
    noLeadingData (x :: xs) = noLeadingData xs := by
  simp [noLeadingData, hx, hxd]

/-- Position of the group opened by a later metadata member `m`, seen from an
already-open group: one slot per metadata member of the prefix, plus one for
the open group itself. -/
theorem specGroupsFrom_get :
    ∀ (a : List TarMember) (x : TarMember) (dc : Option TarMember)
      (m : TarMember) (rest : List TarMember), isMetaFile m = true →
      (specGroupsFrom x dc (a ++ m :: rest)).get? ((metaFiles a).length + 1)
        = (specGroupsFrom m none rest).get? 0 := by
  intro a
  induction a with
  | nil =>
    intro x dc m rest hm
    simp [specGroupsFrom, hm, metaFiles]
  | cons y a' ih =>
    intro x dc m rest hm
    by_cases hy : isMetaFile y = true
    · rw [List.cons_append, specGroupsFrom_cons_meta x dc _ hy, metaFiles_cons_pos _ hy,
        List.length_cons, List.get?_cons_succ]
      exact ih y none m rest hm
    · by_cases hyd : isDataFile y = true
      · rw [List.cons_append, specGroupsFrom_cons_dataset x dc _ hyd,
          metaFiles_cons_neg _ (by simpa using hy)]
        exact ih x (some y) m rest hm
      · rw [List.cons_append,
          specGroupsFrom_cons_skip x dc _ (by simpa using hy) (by simpa using hyd),
          metaFiles_cons_neg _ (by simpa using hy)]
        exact ih x dc m rest hm

/-- Position of the group opened by metadata member `m` in the declarative
grouping: one slot per metadata member of the prefix. -/
theorem specGroups_get :
    ∀ (a : List TarMember) (m : TarMember) (rest : List TarMember),
      isMetaFile m = true → noLeadingData (a ++ m :: rest) = true →
      (specGroups (a ++ m :: rest)).get? (metaFiles a).length
        = (specGroupsFrom m none rest).get? 0 := by
  intro a
  induction a with
  | nil =>
    intro m rest hm _
    simp [specGroups, hm, metaFiles]
  | cons y a' ih =>
    intro m rest hm hn
    by_cases hy : isMetaFile y = true
    · rw [List.cons_append, specGroups_cons_meta _ hy, metaFiles_cons_pos _ hy,
        List.length_cons]
      exact specGroupsFrom_get a' y none m rest hm
    · by_cases hyd : isDataFile y = true
      · simp [noLeadingData, hy, hyd] at hn
      · rw [List.cons_append, specGroups_cons_skip _ (by simpa using hy),
          metaFiles_cons_neg _ (by simpa using hy)]
        rw [List.cons_append,
          noLeadingData_cons_skip _ (by simpa using hy) (by simpa using hyd)] at hn
        exact ih m rest hm hn

/-- If no dataset member occurs before the group's window closes, the pending
dataset survives into the flushed group. -/
theorem specGroupsFrom_get_zero_nodata :
    ∀ (b : List TarMember) (m d : TarMember), noLeadingData b = true →
      (specGroupsFrom m (some d) b).get? 0
        = some { metadata := some m, data := some d } := by
  intro b
  induction b with
  | nil => intro m d _; rfl
  | cons x xs ih =>
    intro m d hn
    by_cases hx : isMetaFile x = true
    · simp [specGroupsFrom, hx]
    · by_cases hxd : isDataFile x = true
      · simp [noLeadingData, hx, hxd] at hn
      · simp only [specGroupsFrom, hx, hxd, if_false]
        exact ih m d (by simpa [noLeadingData, hx, hxd] using hn)

/-- A group closed immediately by the next metadata member has no dataset. -/
theorem specGroupsFrom_get_zero_meta (b : List TarMember) (m m' : TarMember)
    (hm' : isMetaFile m' = true) :
    (specGroupsFrom m none (m' :: b)).get? 0
      = some { metadata := some m, data := none } := by
  simp [specGroupsFrom, hm']

/-- With no dataset members at all, every declaratively-built group from an
open window with no pending dataset is dataset-free. -/
theorem specGroupsFrom_data_none :
    ∀ (xs : List TarMember) (m : TarMember),
      (∀ x ∈ xs, isDataFile x = false) →
      ∀ r ∈ specGroupsFrom m none xs, r.data = none := by
  intro xs
  induction xs with
  | nil =>
    intro m _ r hr
    rcases List.mem_singleton.mp hr with rfl
    rfl
  | cons x xs ih =>
    intro m hnone r hr
    by_cases hx : isMetaFile x = true
    · simp only [specGroupsFrom, hx, if_true] at hr
      rcases List.mem_cons.mp hr with rfl | hr
      · rfl
      · exact ih x (fun y hy => hnone y (List.mem_cons_of_mem x hy)) r hr
    · have hxd : isDataFile x = false := hnone x (by simp)
      simp only [specGroupsFrom, hx, hxd, if_false] at hr
      exact ih m (fun y hy => hnone y (List.mem_cons_of_mem x hy)) r hr

/-- With no dataset members at all, every declaratively-built group is
dataset-free. -/
theorem specGroups_data_none :
    ∀ ms : List TarMember, (∀ x ∈ ms, isDataFile x = false) →
      ∀ r ∈ specGroups ms, r.data = none := by
  intro ms
  induction ms with
  | nil => intro _ r hr; simp [specGroups] at hr
  | cons x xs ih =>
    intro hnone r hr
    by_cases hx : isMetaFile x = true
    · simp only [specGroups, hx, if_true] at hr
      exact specGroupsFrom_data_none xs x
        (fun y hy => hnone y (List.mem_cons_of_mem x hy)) r hr
    · simp only [specGroups, hx, if_false] at hr
      exact ih (fun y hy => hnone y (List.mem_cons_of_mem x hy)) r hr

/-- Every declaratively-built group's metadata is one of the window's metadata
members. -/
theorem specGroupsFrom_meta_mem :
    ∀ (xs : List TarMember) (m : TarMember) (d : Option TarMember)
      (r : ArchiveRecording), r ∈ specGroupsFrom m d xs →
      ∃ mm, r.metadata = some mm ∧ (mm = m ∨ (mm ∈ xs ∧ isMetaFile mm = true)) := by
  intro xs
  induction xs with
  | nil =>
    intro m d r hr
    rcases List.mem_singleton.mp hr with rfl
    exact ⟨m, rfl, Or.inl rfl⟩
  | cons x xs ih =>
    intro m d r hr
    by_cases hx : isMetaFile x = true
    · simp only [specGroupsFrom, hx, if_true] at hr
      rcases List.mem_cons.mp hr with rfl | hr
      · exact ⟨m, rfl, Or.inl rfl⟩
      · obtain ⟨mm, hmm, hcase⟩ := ih x none r hr
        rcases hcase with rfl | ⟨hmem, hmeta⟩
        · exact ⟨mm, hmm, Or.inr ⟨by simp, hx⟩⟩
        · exact ⟨mm, hmm, Or.inr ⟨List.mem_cons_of_mem x hmem, hmeta⟩⟩
    · by_cases hxd : isDataFile x = true
      · simp only [specGroupsFrom, hx, hxd, if_true, if_false] at hr
        obtain ⟨mm, hmm, hcase⟩ := ih m (some x) r hr
        rcases hcase with rfl | ⟨hmem, hmeta⟩
        · exact ⟨mm, hmm, Or.inl rfl⟩
        · exact ⟨mm, hmm, Or.inr ⟨List.mem_cons_of_mem x hmem, hmeta⟩⟩
      · simp only [specGroupsFrom, hx, hxd, if_false] at hr
        obtain ⟨mm, hmm, hcase⟩ := ih m d r hr
        rcases hcase with rfl | ⟨hmem, hmeta⟩
        · exact ⟨mm, hmm, Or.inl rfl⟩
        · exact ⟨mm, hmm, Or.inr ⟨List.mem_cons_of_mem x hmem, hmeta⟩⟩

/-- Every declaratively-built group's metadata is a metadata member of the
archive. -/
theorem specGroups_meta_mem :
    ∀ (ms : List TarMember) (r : ArchiveRecording), r ∈ specGroups ms →
      ∃ mm, r.metadata = some mm ∧ mm ∈ ms ∧ isMetaFile mm = true := by
  intro ms
  induction ms with
  | nil => intro r hr; simp [specGroups] at hr
  | cons x xs ih =>
    intro r hr
    by_cases hx : isMetaFile x = true
    · simp only [specGroups, hx, if_true] at hr
      obtain ⟨mm, hmm, hcase⟩ := specGroupsFrom_meta_mem xs x none r hr
      rcases hcase with rfl | ⟨hmem, hmeta⟩
      · exact ⟨mm, hmm, by simp, hx⟩
      · exact ⟨mm, hmm, List.mem_cons_of_mem x hmem, hmeta⟩
    · simp only [specGroups, hx, if_false] at hr
      obtain ⟨mm, hmm, hmem, hmeta⟩ := ih r hr
      exact ⟨mm, hmm, List.mem_cons_of_mem x hmem, hmeta⟩

/-- When every recording's metadata validates, the construction loop raises
nothing. -/
theorem buildRecordings_ok_of_valid :
    ∀ recs : List ArchiveRecording,
      (∀ r ∈ recs, ∃ m, r.metadata = some m ∧ m.valid = true) →
      ∃ fs, buildRecordings recs = .ok fs := by
  intro recs
  induction recs with
  | nil => intro _; exact ⟨[], rfl⟩
  | cons r rs ih =>
    intro hall
    obtain ⟨m, hm, hv⟩ := hall r (by simp)
    obtain ⟨fs, hfs⟩ := ih fun x hx => hall x (List.mem_cons_of_mem r hx)
    refine ⟨{ name := dirname (splitextRoot m.name), metadata := m.contents,
              dataFile := r.data.map fun d => (d.offset_data, d.size) } :: fs, ?_⟩
    simp [buildRecordings, buildRecording, hm, hv, hfs]

/-- A full run from the initial state flushes exactly the declarative
grouping, provided no dataset member precedes the first metadata member. -/
theorem finish_group_empty_init {ms : List TarMember}
    (hn : noLeadingData ms = true) :
    finishGroups (groupMembers ms initState).fst = specGroups ms := by
  have h := finish_group_empty ms [] hn
  simpa [initState] using h

/-- An archive with no dataset members trivially has none before the first
metadata member. -/
theorem noLeadingData_of_noData :
    ∀ ms : List TarMember, (∀ m ∈ ms, isDataFile m = false) →
      noLeadingData ms = true := by
  intro ms
  induction ms with
  | nil => intro _; rfl
  | cons x xs ih =>
    intro h
    by_cases hx : isMetaFile x = true
    · simp [noLeadingData, hx]
    · have hxd : isDataFile x = false := h x (by simp)
      rw [noLeadingData_cons_skip _ (by simpa using hx) hxd]
      exact ih fun y hy => h y (List.mem_cons_of_mem x hy)

/-- Once the source checks pass, the constructor is the parse pass. -/
theorem readerInit_opened {path : Option PathStr} {hasBuffer : Bool}
    (ms : List TarMember) (h : openedSource path hasBuffer = true) :
    readerInit path hasBuffer ms = parseArchive ms := by
  cases path with
  | some p => simp only [openedSource] at h; simp [readerInit, h]
  | none => simp only [openedSource] at h; simp [readerInit, h]

/-- Building a single recording can only raise a validation error (or the
unreachable internal error for a metadata-less group). -/
theorem buildRecording_error {r : ArchiveRecording} {e : ReaderErr}
    (h : buildRecording r = .error e) : e = .validation ∨ e = .internal := by
  rcases r with ⟨mo, dd⟩
  cases mo with
  | none =>
    simp only [buildRecording, Except.error.injEq] at h
    exact Or.inr h.symm
  | some m =>
    by_cases hv : m.valid = true
    · simp [buildRecording, hv] at h
    · simp only [buildRecording, hv, Bool.false_eq_true, if_false,
        Except.error.injEq] at h
      exact Or.inl h.symm

/-- The construction loop can only raise a validation error (or the
unreachable internal error). -/
theorem buildRecordings_error :
    ∀ (recs : List ArchiveRecording) (e : ReaderErr),
      buildRecordings recs = .error e → e = .validation ∨ e = .internal := by
  intro recs
  induction recs with
  | nil => intro e h; simp [buildRecordings] at h
  | cons r rs ih =>
    intro e h
    simp only [buildRecordings] at h
    cases hb : buildRecording r with
    | error e' =>
      rw [hb] at h
      simp only [Except.error.injEq] at h
      subst h
      exact buildRecording_error hb
    | ok f =>
      rw [hb] at h
      cases hbs : buildRecordings rs with
      | error e' =>
        rw [hbs] at h
        simp only [Except.error.injEq] at h
        subst h
        exact ih e' hbs
      | ok fs => rw [hbs] at h; exact absurd h (by simp)

/-- Every produced file comes from some flushed recording. -/
theorem buildRecordings_mem_right {recs : List ArchiveRecording}
    {fs : List SigMFFile} (h : buildRecordings recs = .ok fs) :
    ∀ f ∈ fs, ∃ r ∈ recs, buildRecording r = .ok f := by
  have hf := buildRecordings_forall recs fs h
  clear h
  induction hf with
  | nil => intro f hf; simp at hf
  | cons h1 h2 ih =>
    intro f hf
    rcases List.mem_cons.mp hf with rfl | hf
    · exact ⟨_, by simp, h1⟩
    · obtain ⟨r, hr, hb⟩ := ih f hf
      exact ⟨r, List.mem_cons_of_mem _ hr, hb⟩

/-- The member loop only ever appends to the flushed list. -/
theorem groupMembers_recordings_prefix :
    ∀ (ms : List TarMember) (s : GroupState),
      s.recordings <+: ((groupMembers ms s).fst).recordings := by
  intro ms
  induction ms with
  | nil => intro s; exact List.prefix_refl _
  | cons x xs ih =>
    intro s
    rw [groupMembers_cons_fst]
    refine List.IsPrefix.trans ?_ (ih (groupStep s x).fst)
    by_cases hm : isMetaFile x = true
    · cases hc : s.current.metadata with
      | some m0 => rw [groupStep_meta_open s hm hc]; exact ⟨[s.current], rfl⟩
      | none => rw [groupStep_meta_empty s hm hc]
    · by_cases hd : isDataFile x = true
      · rw [groupStep_data s hd]
      · rw [groupStep_skip_fst s (by simpa using hm) (by simpa using hd)]

/-- Ordering invariant of the member loop: starting from a state whose saved
pairs are ordered inside the already-processed prefix `p`, and whose pending
group either is empty with no dataset member due before the next metadata
member, or has its metadata inside `p`, every flushed recording pairs its
metadata before its dataset inside `p ++ ms`. -/
theorem group_pairs_ordered_aux :
    ∀ (ms p : List TarMember) (s : GroupState),
      (∀ r ∈ s.recordings, ∀ d, r.data = some d →
        ∃ m, r.metadata = some m ∧ [m, d].Sublist p) →
      (∀ d, s.current.data = some d →
        ∃ m, s.current.metadata = some m ∧ [m, d].Sublist p) →
      (s.current.metadata = none →
        s.current.data = none ∧ noLeadingData ms = true) →
      (∀ m, s.current.metadata = some m → [m].Sublist p) →
      ∀ r ∈ finishGroups (groupMembers ms s).fst, ∀ d, r.data = some d →
        ∃ m, r.metadata = some m ∧ [m, d].Sublist (p ++ ms) := by
  intro ms
  induction ms with
  | nil =>
    intro p s h1 h2 h3 h4 r hr d hd
    rw [List.append_nil]
    simp only [groupMembers] at hr
    unfold finishGroups at hr
    split at hr
    · rcases List.mem_append.mp hr with hr | hr
      · exact h1 r hr d hd
      · rcases List.mem_singleton.mp hr with rfl
        exact h2 d hd
    · exact h1 r hr d hd
  | cons x xs ih =>
    intro p s h1 h2 h3 h4 r hr d hd
    rw [groupMembers_cons_fst] at hr
    have hre : (p ++ [x]) ++ xs = p ++ x :: xs := by simp
    rw [← hre]
    by_cases hm : isMetaFile x = true
    · cases hc : s.current.metadata with
      | some m0 =>
        rw [groupStep_meta_open s hm hc] at hr
        refine ih (p ++ [x]) _ ?_ ?_ ?_ ?_ r hr d hd
        · intro r' hr' d' hd'
          rcases List.mem_append.mp hr' with hr' | hr'
          · obtain ⟨m, hmm, hsub⟩ := h1 r' hr' d' hd'
            exact ⟨m, hmm, hsub.trans (List.sublist_append_left p [x])⟩
          · rcases List.mem_singleton.mp hr' with rfl
            obtain ⟨m, hmm, hsub⟩ := h2 d' hd'
            exact ⟨m, hmm, hsub.trans (List.sublist_append_left p [x])⟩
        · intro d' hd'
          exact absurd hd' (by simp)
        · intro hnone
          exact absurd hnone (by simp)
        · intro m hmeq
          cases Option.some.inj hmeq
          exact List.sublist_append_right p [x]
      | none =>
        obtain ⟨hdn, _⟩ := h3 hc
        rw [groupStep_meta_empty s hm hc] at hr
        refine ih (p ++ [x]) _ ?_ ?_ ?_ ?_ r hr d hd
        · intro r' hr' d' hd'
          obtain ⟨m, hmm, hsub⟩ := h1 r' hr' d' hd'
          exact ⟨m, hmm, hsub.trans (List.sublist_append_left p [x])⟩
        · intro d' hd'
          have hd2 : s.current.data = some d' := hd'
          rw [hdn] at hd2
          cases hd2
        · intro hnone
          simp at hnone
        · intro m hmeq
          cases Option.some.inj hmeq
          exact List.sublist_append_right p [x]
    · by_cases hdx : isDataFile x = true
      · cases hc : s.current.metadata with
        | some m0 =>
          rw [groupStep_data s hdx] at hr
          refine ih (p ++ [x]) _ ?_ ?_ ?_ ?_ r hr d hd
          · intro r' hr' d' hd'
            obtain ⟨m, hmm, hsub⟩ := h1 r' hr' d' hd'
            exact ⟨m, hmm, hsub.trans (List.sublist_append_left p [x])⟩
          · intro d' hd'
            cases Option.some.inj hd'
            refine ⟨m0, hc, ?_⟩
            exact List.Sublist.append (h4 m0 hc) (List.Sublist.refl [x])
          · intro hnone
            have h5 : s.current.metadata = none := hnone
            rw [hc] at h5
            cases h5
          · intro m hmeq
            have h5 : s.current.metadata = some m := hmeq
            rw [hc] at h5
            cases Option.some.inj h5
            exact (h4 m0 hc).trans (List.sublist_append_left p [x])
        | none =>
          obtain ⟨_, hnl⟩ := h3 hc
          simp [noLeadingData, hm, hdx] at hnl
      · rw [groupStep_skip_fst s (by simpa using hm) (by simpa using hdx)] at hr
        refine ih (p ++ [x]) s ?_ ?_ ?_ ?_ r hr d hd
        · intro r' hr' d' hd'
          obtain ⟨m, hmm, hsub⟩ := h1 r' hr' d' hd'
          exact ⟨m, hmm, hsub.trans (List.sublist_append_left p [x])⟩
        · intro d' hd'
          obtain ⟨m, hmm, hsub⟩ := h2 d' hd'
          exact ⟨m, hmm, hsub.trans (List.sublist_append_left p [x])⟩
        · intro hnone
          obtain ⟨hdn, hnl⟩ := h3 hnone
          refine ⟨hdn, ?_⟩
          rwa [noLeadingData_cons_skip _ (by simpa using hm) (by simpa using hdx)] at hnl
        · intro m hmeq
          exact (h4 m hmeq).trans (List.sublist_append_left p [x])

/-- C1: for every archive satisfying the construction invariant, a successful
open yields a RecordingSet with exactly one element per metadata entry, in
metadata-entry order: the i-th produced file carries the i-th metadata
entry's document. -/
theorem claim_c1_recordingset_size_order (ms : List TarMember)
    (fs : List SigMFFile) (hwf : wellFormedArchive ms = true)
    (hok : (parseArchive ms).fst = .ok fs) :
    fs.length = (metaFiles ms).length ∧
      fs.map (fun f => some f.metadata)
        = (metaFiles ms).map (fun m => some m.contents) := by
  have hb := parseArchive_fst_ok.mp hok
  rw [finish_group_empty_init (wellFormed_noLeadingData ms hwf)] at hb
  have hmeta := specGroups_meta_map ms
  constructor
  · have hlen := buildRecordings_length hb
    have hlen2 : (specGroups ms).length = (metaFiles ms).length := by
      have := congrArg List.length hmeta
      simpa using this
    exact hlen.trans hlen2
  · rw [buildRecordings_map_metadata hb]
    calc (specGroups ms).map (fun r => r.metadata.map TarMember.contents)
        = ((specGroups ms).map ArchiveRecording.metadata).map
            (fun o => o.map TarMember.contents) := by
          rw [List.map_map]; rfl
      _ = ((metaFiles ms).map some).map (fun o => o.map TarMember.contents) := by
          rw [hmeta]
      _ = (metaFiles ms).map (fun m => some m.contents) := by
          rw [List.map_map]; rfl

/-- C1 witness: the two-recording flat archive satisfies the invariant and
produces two files in metadata order. -/
theorem claim_c1_witness :
    wellFormedArchive [exMeta1, exData1, exMeta2, exData2] = true ∧
      ([ { name := [], metadata := "rec1.sigmf-meta", dataFile := some (100, 20) }
       , { name := [], metadata := "rec2.sigmf-meta", dataFile := some (300, 40) } ]
          : List SigMFFile).length
        = (metaFiles [exMeta1, exData1, exMeta2, exData2]).length :=
  ⟨by decide,
   (claim_c1_recordingset_size_order [exMeta1, exData1, exMeta2, exData2]
      [ { name := [], metadata := "rec1.sigmf-meta", dataFile := some (100, 20) }
      , { name := [], metadata := "rec2.sigmf-meta", dataFile := some (300, 40) } ]
      (by decide) (by rfl)).1⟩

/-- C2 counterexample: on the flat container of the claim's concrete scenario
the produced names are both empty, not `rec1` and `rec2` — the code derives
the name with `os.path.dirname`, which strips the final component instead of
the leading directories. -/
theorem claim_c2_counterexample :
    (parseArchive [exMeta1, exData1, exMeta2, exData2]).fst
        = .ok [ { name := [], metadata := "rec1.sigmf-meta", dataFile := some (100, 20) }
              , { name := [], metadata := "rec2.sigmf-meta", dataFile := some (300, 40) } ]
      ∧ ([] : PathStr) ≠ "rec1".toList :=
  ⟨by rfl, by decide⟩

/-- C2 amended: each completed recording's logical name is the DIRECTORY part
of its metadata entry's path after splitting off the final extension (so a
directory-layout entry `rec1/rec1.sigmf-meta` yields `rec1`, while a flat
entry `rec1.sigmf-meta` yields the empty name). -/
theorem claim_c2_amended_dirname (ms : List TarMember) (fs : List SigMFFile)
    (hn : noLeadingData ms = true) (hok : (parseArchive ms).fst = .ok fs) :
    fs.map (fun f => some f.name)
      = (metaFiles ms).map (fun m => some (dirname (splitextRoot m.name))) := by
  have hb := parseArchive_fst_ok.mp hok
  rw [finish_group_empty_init hn] at hb
  have hmeta := specGroups_meta_map ms
  rw [buildRecordings_map_name hb]
  calc (specGroups ms).map (fun r => r.metadata.map fun m => dirname (splitextRoot m.name))
      = ((specGroups ms).map ArchiveRecording.metadata).map
          (fun o => o.map fun m => dirname (splitextRoot m.name)) := by
        rw [List.map_map]; rfl
    _ = ((metaFiles ms).map some).map
          (fun o => o.map fun m => dirname (splitextRoot m.name)) := by
        rw [hmeta]
    _ = (metaFiles ms).map (fun m => some (dirname (splitextRoot m.name))) := by
        rw [List.map_map]; rfl

/-- C2 witness: on the directory-layout archive the derived names are `rec1`
and `rec2`. -/
theorem claim_c2_witness :
    noLeadingData [exMetaDir1, exDataDir1, exMetaDir2, exDataDir2] = true ∧
      ([ { name := "rec1".toList, metadata := "rec1/rec1.sigmf-meta"
         , dataFile := some (100, 20) }
       , { name := "rec2".toList, metadata := "rec2/rec2.sigmf-meta"
         , dataFile := some (300, 40) } ] : List SigMFFile).map (fun f => some f.name)
        = (metaFiles [exMetaDir1, exDataDir1, exMetaDir2, exDataDir2]).map
            (fun m => some (dirname (splitextRoot m.name))) :=
  ⟨by decide,
   claim_c2_amended_dirname [exMetaDir1, exDataDir1, exMetaDir2, exDataDir2]
     [ { name := "rec1".toList, metadata := "rec1/rec1.sigmf-meta"
       , dataFile := some (100, 20) }
     , { name := "rec2".toList, metadata := "rec2/rec2.sigmf-meta"
       , dataFile := some (300, 40) } ]
     (by decide) (by rfl)⟩

/-- C3 counterexample: in the archive `[exData1, exMeta1]` the completed
recording holds the dataset entry that occurs at position 0, BEFORE its
metadata entry at position 1 — the dataset seen in the EMPTY state is kept
and attached to the later-opened group, so metadata-before-dataset fails. -/
theorem claim_c3_counterexample :
    finishGroups (groupMembers [exData1, exMeta1] initState).fst
        = [{ metadata := some exMeta1, data := some exData1 }]
      ∧ ¬ [exMeta1, exData1].Sublist [exData1, exMeta1] :=
  ⟨by decide, by decide⟩

/-- C3 amended: provided no dataset entry occurs before the first metadata
entry (no dataset is processed in the EMPTY state), every completed
recording's metadata entry occurs before its attached dataset entry in
container order. -/
theorem claim_c3_amended_dataset_after_metadata (ms : List TarMember)
    (hn : noLeadingData ms = true) :
    ∀ r ∈ finishGroups (groupMembers ms initState).fst, ∀ d, r.data = some d →
      ∃ m, r.metadata = some m ∧ [m, d].Sublist ms := by
  intro r hr d hd
  have h := group_pairs_ordered_aux ms [] initState
    (by intro r' hr' d' hd'; simp [initState] at hr')
    (by intro d' hd'; simp [initState] at hd')
    (fun _ => ⟨rfl, hn⟩)
    (by intro m hm; simp [initState] at hm)
    r hr d hd
  simpa using h

/-- C3 witness: on `[exMeta1, exData1]` the completed recording's pair is
ordered metadata-first. -/
theorem claim_c3_witness :
    noLeadingData [exMeta1, exData1] = true ∧
      ∃ m, ({ metadata := some exMeta1, data := some exData1 }
              : ArchiveRecording).metadata = some m
        ∧ [m, exData1].Sublist [exMeta1, exData1] :=
  ⟨by decide,
   claim_c3_amended_dataset_after_metadata [exMeta1, exData1] (by decide)
     { metadata := some exMeta1, data := some exData1 } (by decide) exData1 rfl⟩

/-- C4 counterexample: in `[exData1, exMeta1, exMeta2]` the metadata entry
`exMeta1` is immediately followed by another metadata entry with no dataset
entry in between, yet its recording is produced with a NON-empty dataset
reference (the stray leading dataset) — so the claim fails on archives
violating the construction invariant. -/
theorem claim_c4_counterexample :
    (parseArchive [exData1, exMeta1, exMeta2]).fst
        = .ok [ { name := [], metadata := "rec1.sigmf-meta", dataFile := some (100, 20) }
              , { name := [], metadata := "rec2.sigmf-meta", dataFile := none } ]
      ∧ (some ((100 : Nat), (20 : Nat))) ≠ (none : Option (Nat × Nat)) :=
  ⟨by rfl, by decide⟩

/-- C4 amended: for archives satisfying the construction invariant, a
metadata entry immediately followed by a dataset entry yields a recording
(at the position given by the number of earlier metadata entries) bound to
exactly that dataset entry's offset and size, and a metadata entry
immediately followed by another metadata entry yields a recording with an
empty dataset reference. -/
theorem claim_c4_amended_immediate_successor (ms a b : List TarMember)
    (m x : TarMember) (fs : List SigMFFile)
    (hwf : wellFormedArchive ms = true)
    (hok : (parseArchive ms).fst = .ok fs)
    (hdecomp : ms = a ++ m :: x :: b) (hm : isMetaFile m = true) :
    (isDataFile x = true →
      ∃ f, fs.get? (metaFiles a).length = some f
        ∧ f.dataFile = some (x.offset_data, x.size)) ∧
    (isMetaFile x = true →
      ∃ f, fs.get? (metaFiles a).length = some f ∧ f.dataFile = none) := by
  subst hdecomp
  have hnl := wellFormed_noLeadingData _ hwf
  have hb := parseArchive_fst_ok.mp hok
  rw [finish_group_empty_init hnl] at hb
  have hgetBase := specGroups_get a m (x :: b) hm hnl
  constructor
  · intro hx
    have hwf' : wfFrom true (a ++ m :: x :: b) = true := hwf
    obtain ⟨f', hf'⟩ := wfFrom_append a (m :: x :: b) true hwf'
    simp [wfFrom, hm, isDataFile_not_meta hx, hx] at hf'
    have hnlb := wellFormed_noLeadingData b hf'
    have hget : (specGroups (a ++ m :: x :: b)).get? (metaFiles a).length
        = some { metadata := some m, data := some x } := by
      rw [hgetBase, specGroupsFrom_cons_dataset m none b hx]
      exact specGroupsFrom_get_zero_nodata b m x hnlb
    obtain ⟨f, hfget, hfb⟩ := buildRecordings_get hb _ _ hget
    refine ⟨f, hfget, ?_⟩
    obtain ⟨mm, hmm, hmv, hfeq⟩ := buildRecording_ok_elim hfb
    cases Option.some.inj hmm
    rw [hfeq]
    rfl
  · intro hx
    have hget : (specGroups (a ++ m :: x :: b)).get? (metaFiles a).length
        = some { metadata := some m, data := none } := by
      rw [hgetBase]
      exact specGroupsFrom_get_zero_meta b m x hx
    obtain ⟨f, hfget, hfb⟩ := buildRecordings_get hb _ _ hget
    refine ⟨f, hfget, ?_⟩
    obtain ⟨mm, hmm, hmv, hfeq⟩ := buildRecording_ok_elim hfb
    cases Option.some.inj hmm
    rw [hfeq]
    rfl

/-- C4 witness: in the two-recording flat archive, the recording opened by
the first metadata entry is bound to the immediately following dataset
entry's offset and size. -/
theorem claim_c4_witness :
    wellFormedArchive [exMeta1, exData1, exMeta2, exData2] = true ∧
      isDataFile exData1 = true ∧
      ∃ f, ([ { name := [], metadata := "rec1.sigmf-meta", dataFile := some (100, 20) }
            , { name := [], metadata := "rec2.sigmf-meta", dataFile := some (300, 40) } ]
              : List SigMFFile).get? (metaFiles ([] : List TarMember)).length = some f
        ∧ f.dataFile = some (exData1.offset_data, exData1.size) :=
  ⟨by decide, by decide,
   (claim_c4_amended_immediate_successor [exMeta1, exData1, exMeta2, exData2]
      [] [exMeta2, exData2] exMeta1 exData1
      [ { name := [], metadata := "rec1.sigmf-meta", dataFile := some (100, 20) }
      , { name := [], metadata := "rec2.sigmf-meta", dataFile := some (300, 40) } ]
      (by decide) (by rfl) (by rfl) (by decide)).1 (by decide)⟩

/-- C5: processing a dataset entry — in any accumulator state, including the
EMPTY state or a group that already holds a dataset — leaves the flushed
output list of recordings exactly unchanged, and more generally the loop
only ever appends to the flushed list. -/
theorem claim_c5_flushed_groups_immutable (s : GroupState) (m : TarMember)
    (ms : List TarMember) (h : isDataFile m = true) :
    (groupStep s m).fst.recordings = s.recordings ∧
      s.recordings <+: ((groupMembers ms s).fst).recordings := by
  constructor
  · rw [groupStep_data s h]
  · exact groupMembers_recordings_prefix ms s

/-- C5 witness: a second dataset entry leaves the already-flushed recording
untouched. -/
theorem claim_c5_witness :
    isDataFile exData2 = true ∧
      ((groupStep { recordings := [{ metadata := some exMeta1, data := some exData1 }]
                  , current := { metadata := some exMeta2, data := none } }
          exData2).fst.recordings
          = [{ metadata := some exMeta1, data := some exData1 }] ∧
        [{ metadata := some exMeta1, data := some exData1 }]
          <+: ((groupMembers [exData2]
                { recordings := [{ metadata := some exMeta1, data := some exData1 }]
                , current := { metadata := some exMeta2, data := none } }).fst).recordings) :=
  ⟨by decide,
   claim_c5_flushed_groups_immutable
     { recordings := [{ metadata := some exMeta1, data := some exData1 }]
     , current := { metadata := some exMeta2, data := none } }
     exData2 [exData2] (by decide)⟩

/-- C6: whenever a container handle is acquired, the trace closes it exactly
once, on every exit path; and a metadata validation failure makes the whole
open fail with the validation error (no partial RecordingSet is returned). -/
theorem claim_c6_validation_abort_close_once (path : Option PathStr)
    (hasBuffer : Bool) (ms : List TarMember)
    (hopen : openedSource path hasBuffer = true) :
    ((readerInit path hasBuffer ms).snd).count ReaderEvent.closeContainer = 1 ∧
      ((∃ r ∈ finishGroups (groupMembers ms initState).fst,
          ∃ m, r.metadata = some m ∧ m.valid = false) →
        (readerInit path hasBuffer ms).fst = .error .validation) := by
  rw [readerInit_opened ms hopen]
  refine ⟨parseArchive_close_count ms, ?_⟩
  intro hex
  have hval := buildRecordings_error_validation _
    (fun r hr => finish_metadata_isSome ms r hr) hex
  rw [parseArchive_eq_error hval]

/-- C6 witness: a path-opened archive holding one invalid metadata entry is
closed once and the open fails with the validation error. -/
theorem claim_c6_witness :
    openedSource (some "a.sigmf".toList) false = true ∧
      (((readerInit (some "a.sigmf".toList) false [exMetaInvalid]).snd).count
          ReaderEvent.closeContainer = 1 ∧
        ((∃ r ∈ finishGroups (groupMembers [exMetaInvalid] initState).fst,
            ∃ m, r.metadata = some m ∧ m.valid = false) →
          (readerInit (some "a.sigmf".toList) false [exMetaInvalid]).fst
            = .error .validation)) :=
  ⟨by decide,
   claim_c6_validation_abort_close_once (some "a.sigmf".toList) false
     [exMetaInvalid] (by decide)⟩

/-- C7: with neither a path nor a buffer the constructor fails with the usage
error and the trace is empty — no container event, no entry read, no handle
acquired. -/
theorem claim_c7_usage_error_no_io (ms : List TarMember) :
    readerInit none false ms = (.error .usage, []) := rfl

/-- C8: a path not ending in the archive extension fails with the format
error on an empty trace (before the container is opened and before any entry
is read), while a buffer-based open performs no extension check: it opens the
container and can never fail with the format error. -/
theorem claim_c8_format_error_before_open (p : PathStr) (hb : Bool)
    (ms : List TarMember) (h : endswith p SIGMF_ARCHIVE_EXT = false) :
    readerInit (some p) hb ms = (.error .format, []) ∧
      ((readerInit none true ms).snd).head? = some ReaderEvent.openContainer ∧
      ∀ e : ReaderErr, (readerInit none true ms).fst = .error e → e ≠ .format := by
  refine ⟨by simp [readerInit, h], ?_, ?_⟩
  · rw [@readerInit_opened none true ms rfl]
    cases hbr : buildRecordings (finishGroups (groupMembers ms initState).fst) with
    | error e => rw [parseArchive_eq_error hbr]; rfl
    | ok fs => rw [parseArchive_eq_ok hbr]; rfl
  · intro e he
    rw [@readerInit_opened none true ms rfl] at he
    cases hbr : buildRecordings (finishGroups (groupMembers ms initState).fst) with
    | error e' =>
      rw [parseArchive_eq_error hbr] at he
      have he2 : e' = e := by simpa using he
      subst he2
      rcases buildRecordings_error _ e' hbr with h' | h' <;> simp [h']
    | ok fs =>
      rw [parseArchive_eq_ok hbr] at he
      simp at he

/-- C8 witness: a `.tar` path is rejected with the format error on an empty
trace, and a buffer open of an empty archive opens the container and does not
raise the format error. -/
theorem claim_c8_witness :
    endswith "x.tar".toList SIGMF_ARCHIVE_EXT = false ∧
      (readerInit (some "x.tar".toList) false ([] : List TarMember)
          = (.error .format, []) ∧
        ((readerInit none true ([] : List TarMember)).snd).head?
          = some ReaderEvent.openContainer ∧
        ∀ e : ReaderErr,
          (readerInit none true ([] : List TarMember)).fst = .error e →
            e ≠ .format) :=
  ⟨by decide,
   claim_c8_format_error_before_open "x.tar".toList false [] (by decide)⟩

/-- C9 counterexample: an archive with zero dataset entries whose single
metadata document fails validation does NOT open successfully — the claim's
unconditional "open succeeds" fails. -/
theorem claim_c9_counterexample :
    (∀ m ∈ [exMetaInvalid], isDataFile m = false) ∧
      (parseArchive [exMetaInvalid]).fst = .error .validation :=
  ⟨by decide, by rfl⟩

/-- C9 amended: for an archive with zero dataset entries whose metadata
entries all validate, the open succeeds, every returned recording has an
empty dataset reference, and the trace warns exactly once. -/
theorem claim_c9_amended_single_warning (ms : List TarMember)
    (hnd : ∀ m ∈ ms, isDataFile m = false)
    (hv : ∀ m ∈ ms, isMetaFile m = true → m.valid = true) :
    (∃ fs, (parseArchive ms).fst = .ok fs ∧ ∀ f ∈ fs, f.dataFile = none) ∧
      ((parseArchive ms).snd).count ReaderEvent.warnNoData = 1 := by
  have hnl := noLeadingData_of_noData ms hnd
  have hfin := finish_group_empty_init hnl
  have hvall : ∀ r ∈ specGroups ms, ∃ m, r.metadata = some m ∧ m.valid = true := by
    intro r hr
    obtain ⟨mm, hmm, hmem, hmeta⟩ := specGroups_meta_mem ms r hr
    exact ⟨mm, hmm, hv mm hmem hmeta⟩
  obtain ⟨fs, hfs⟩ := buildRecordings_ok_of_valid _ hvall
  have hb : buildRecordings (finishGroups (groupMembers ms initState).fst)
      = .ok fs := by
    rw [hfin]; exact hfs
  have hdnone := specGroups_data_none ms hnd
  have hany : (finishGroups (groupMembers ms initState).fst).any
      (fun r => r.data.isSome) = false := by
    rw [hfin]
    cases hA : (specGroups ms).any (fun r => r.data.isSome) with
    | false => rfl
    | true =>
      obtain ⟨r, hr, hP⟩ := List.any_eq_true.mp hA
      rw [hdnone r hr] at hP
      simp at hP
  constructor
  · refine ⟨fs, parseArchive_fst_ok.mpr hb, ?_⟩
    intro f hf
    obtain ⟨r, hr, hbr⟩ := buildRecordings_mem_right hb f hf
    rw [hfin] at hr
    obtain ⟨mm, hmm, hmv, hfeq⟩ := buildRecording_ok_elim hbr
    rw [hfeq]
    simp [hdnone r hr]
  · rw [parseArchive_eq_ok hb, hany]
    simp [List.count_append, List.count_cons, groupMembers_warn_count]

/-- C9 witness: a one-entry metadata-only archive opens successfully with an
empty dataset reference and exactly one warning. -/
theorem claim_c9_witness :
    (∀ m ∈ [exMeta1], isDataFile m = false) ∧
      (∀ m ∈ [exMeta1], isMetaFile m = true → m.valid = true) ∧
      ((∃ fs, (parseArchive [exMeta1]).fst = .ok fs ∧ ∀ f ∈ fs, f.dataFile = none) ∧
        ((parseArchive [exMeta1]).snd).count ReaderEvent.warnNoData = 1) :=
  ⟨by decide, by decide, claim_c9_amended_single_warning [exMeta1] (by decide) (by decide)⟩

/-- C10: a further dataset entry arriving while the open group already holds
one silently replaces it — the loop keeps the last dataset member, emits no
diagnostic, leaves the flushed list untouched — and the completed recording
is bound to the last dataset entry's offset and size. -/
theorem claim_c10_last_dataset_wins (s : GroupState) (m d0 mv : TarMember)
    (hd : isDataFile m = true) (_hprev : s.current.data = some d0)
    (hval : mv.valid = true) :
    (groupStep s m).fst.current.data = some m ∧
      (groupStep s m).snd = [] ∧
      (groupStep s m).fst.recordings = s.recordings ∧
      buildRecording { metadata := some mv, data := some m }
        = .ok { name := dirname (splitextRoot mv.name), metadata := mv.contents
              , dataFile := some (m.offset_data, m.size) } := by
  rw [groupStep_data s hd]
  exact ⟨rfl, rfl, rfl, buildRecording_ok hval (some m)⟩

/-- C10 witness: with a dataset already pending, a second dataset entry
replaces it and the built file is bound to the second entry's offset and
size. -/
theorem claim_c10_witness :
    isDataFile exData2 = true ∧
      ({ recordings := [], current := { metadata := some exMeta1, data := some exData1 } }
          : GroupState).current.data = some exData1 ∧
      exMeta1.valid = true ∧
      ((groupStep { recordings := []
                  , current := { metadata := some exMeta1, data := some exData1 } }
          exData2).fst.current.data = some exData2 ∧
        (groupStep { recordings := []
                   , current := { metadata := some exMeta1, data := some exData1 } }
          exData2).snd = [] ∧
        (groupStep { recordings := []
                   , current := { metadata := some exMeta1, data := some exData1 } }
          exData2).fst.recordings = [] ∧
        buildRecording { metadata := some exMeta1, data := some exData2 }
          = .ok { name := dirname (splitextRoot exMeta1.name)
                , metadata := exMeta1.contents
                , dataFile := some (exData2.offset_data, exData2.size) }) :=
  ⟨by decide, rfl, rfl,
   claim_c10_last_dataset_wins
     { recordings := [], current := { metadata := some exMeta1, data := some exData1 } }
     exData2 exData1 exMeta1 (by decide) rfl rfl⟩

end SigMF
